import Mathlib

/-!
Verification of the autodocstring pipeline (`src/autodocstring.py`, with
`src/main.py` a duplicate early draft of the same program).

Shallow embedding conventions:
* Python strings are `List Char`; `str.find(pat, start)` is `pyFind`;
  slicing `s[a:b]` (with `0 ≤ a, b`) is `(s.take b).drop a`.
* The statement-level AST is the inductive `Stmt` / `Module`.  Expression
  nodes of the real AST can never contain `FunctionDef` nodes (lambdas are
  not `FunctionDef`), so a statement-level tree is faithful for every claim
  about function nodes, their traversal order and their bodies.
* The external generation service (`model.generate_content`) is abstracted
  as a function from the attempt number to the raw response text; in the
  driver it is a function of the function node (the prompt is built from
  the source segment of the node, fixed for the whole run).
* Raised Python exceptions are `Except` errors.  Note that in
  `generate_docstring` both failure paths format an f-string reading the
  name `node`, which is a local variable of `main` and is not in scope in
  `generate_docstring`; evaluating the f-string therefore raises
  `NameError` before any print/raise/retry happens.  This is modelled by
  `PyErr.nameError`.
-/

/-- One statement of the parsed source tree.
`functionDef` covers `ast.FunctionDef` and `ast.AsyncFunctionDef`
(`isAsync` distinguishes them); `exprConst` is `ast.Expr(ast.Constant v)`,
the shape of statement the patcher inserts (and of real string-literal
statements); `other` is any other statement, carrying the statements
nested inside it (e.g. the bodies of `if`/`for`/`class`). -/
inductive Stmt where
  | functionDef (name : String) (isAsync : Bool) (body : List Stmt)
  | exprConst (value : List Char)
  | other (children : List Stmt)

/-- The `ast.Module` root node: its ordered top-level statements.
(Named `PyModule` because `Module` is taken by Mathlib.) -/
structure PyModule where
  body : List Stmt

/-- The child statements of a statement node, in AST field order
(`ast.iter_child_nodes` restricted to statement children). -/
def children : Stmt → List Stmt
  | .functionDef _ _ b => b
  | .exprConst _ => []
  | .other cs => cs

/-- The `isinstance(node, ast.FunctionDef) or isinstance(node, ast.AsyncFunctionDef)`
filter of the driver loop. -/
def isFuncStmt : Stmt → Bool
  | .functionDef _ _ _ => true
  | _ => false

/-- `node.name` (meaningful only on function nodes). -/
def nameOf : Stmt → String
  | .functionDef n _ _ => n
  | _ => ""

/- ## String search: Python `str.find` -/

/-- The distinguished triple-quote marker `\x22\x22\x22` searched for by
`generate_docstring`. -/
def tq : List Char := ['\"', '\"', '\"']

/-- Helper for `pyFind`: scan `s` left to right, `i` is the absolute index
of the head of `s` in the original string. -/
def findAux (pat : List Char) : List Char → Nat → Option Nat
  | s, i =>
    if pat.isPrefixOf s then some i
    else
      match s with
      | [] => none
      | _ :: t => findAux pat t (i + 1)

/-- Python `s.find(pat, start)`: the least index `i ≥ start` at which `pat`
occurs in `s`, or `none` (the -1 result of Python). -/
def pyFind (s pat : List Char) (start : Nat) : Option Nat :=
  findAux pat (s.drop start) start

/-- `pat` occurs in `s` at index `i`. -/
def occursAt (s pat : List Char) (i : Nat) : Prop := pat <+: s.drop i

instance (s pat : List Char) (i : Nat) : Decidable (occursAt s pat i) := by
  unfold occursAt; infer_instance

/- ## generate_docstring (src/autodocstring.py lines 63-81) -/

/-- A raised Python exception.  The only exception `generate_docstring`
itself can raise is a NameError (the name `node` is not defined): both the
retry-path `print(f"... {node.name}")` and the final
`raise Exception(f"... {node.name}")` format an f-string that reads the
name `node`, which is a local variable of `main` and not in scope here. -/
inductive PyErr where
  | nameError
deriving DecidableEq

instance {ε α : Type _} [DecidableEq ε] [DecidableEq α] : DecidableEq (Except ε α) :=
  fun a b =>
    match a, b with
    | .ok x, .ok y => decidable_of_iff (x = y) (by simp)
    | .error x, .error y => decidable_of_iff (x = y) (by simp)
    | .ok _, .error _ => isFalse (by simp)
    | .error _, .ok _ => isFalse (by simp)

/-- Lines 67-75: locate the first `\x22\x22\x22`; on success slice out the
text up to the next occurrence, appending a closing marker first when none
exists (`docstring_end = len(raw_docstring)` and a marker is appended).
Returns `none` when no opening marker exists (the `find == -1` branch). -/
def extract_docstring (raw : List Char) : Option (List Char) :=
  match pyFind raw tq 0 with
  | none => none
  | some d =>
    let docstring_start := d + 3
    match pyFind raw tq docstring_start with
    | some docstring_end => some ((raw.take docstring_end).drop docstring_start)
    | none =>
      let docstring_end := raw.length
      let raw2 := raw ++ tq
      some ((raw2.take docstring_end).drop docstring_start)

/-- Lines 64-81, the `while tries > 0` loop.  `oracle n` is the raw text of
`model.generate_content(...).text` on attempt `n`.  On a response with a
marker the extracted text is returned.  On a response with no marker the
`else` branch evaluates `f"Could not find ... {node.name}"` and raises
`NameError` (so `tries -= 1` and the next iteration are unreachable); when
the loop is entered with `tries = 0` the final `raise` line evaluates its
f-string, which also reads `node`, so it too raises `NameError`. -/
def generate_docstring (oracle : Nat → List Char) (tries : Nat) :
    Except PyErr (List Char) :=
  match tries with
  | 0 => .error .nameError
  | _ + 1 =>
    let raw_docstring := oracle 0
    match extract_docstring raw_docstring with
    | some d => .ok d
    | none => .error .nameError

/- ## Patcher (src/autodocstring.py lines 136-137) -/

/-- `node.body = [ast.Expr(value=ast.Constant(value=docstring, kind=None))] + node.body`.
Non-function statements are never patched (the isinstance check of the driver). -/
def patchStmt (s : Stmt) (docstring : List Char) : Stmt :=
  match s with
  | .functionDef n a b => .functionDef n a (.exprConst docstring :: b)
  | s => s

/- ## ast.walk (breadth-first, via a deque) and the pre-order traversal -/

/-- Helper for the termination of the traversals: the combined size of the
elements of a list of statements is below the size of the list itself. -/
theorem sum_map_sizeOf_lt (l : List Stmt) : (l.map sizeOf).sum < sizeOf l := by
  induction l with
  | nil => simp
  | cons a l ih =>
    simp only [List.map_cons, List.sum_cons, List.cons.sizeOf_spec]
    omega

/-- The combined size of the children of a node is strictly below the size
of the node itself (with one unit of slack, for mutual termination). -/
theorem children_sizeOf_lt (s : Stmt) : ((children s).map sizeOf).sum + 1 < sizeOf s := by
  cases s with
  | functionDef n a b =>
    have h1 := sum_map_sizeOf_lt b
    have h2 : 1 ≤ sizeOf n := by cases n; simp
    simp only [children, Stmt.functionDef.sizeOf_spec]
    omega
  | exprConst v =>
    have : 1 ≤ sizeOf v := by cases v <;> simp_arith
    simp only [children, List.map_nil, List.sum_nil, Stmt.exprConst.sizeOf_spec]
    omega
  | other cs =>
    have := sum_map_sizeOf_lt cs
    simp only [children, Stmt.other.sizeOf_spec]
    omega

/-- Every statement has positive size. -/
theorem stmt_sizeOf_pos (s : Stmt) : 0 < sizeOf s := by
  cases s <;> simp_arith

/-- Dropping the head decreases the traversal measure. -/
theorem measure_tail_lt (s : Stmt) (rest : List Stmt) :
    ((rest.map sizeOf).sum) < (((s :: rest).map sizeOf).sum) := by
  simp only [List.map_cons, List.sum_cons]
  have := stmt_sizeOf_pos s
  omega

/-- Descending into the children of the head decreases the measure. -/
theorem measure_children_lt (s : Stmt) (rest : List Stmt) :
    ((((children s).map sizeOf).sum)) < (((s :: rest).map sizeOf).sum) := by
  simp only [List.map_cons, List.sum_cons]
  have := children_sizeOf_lt s
  omega

/-- `measure_children_lt` specialized to a function body. -/
theorem measure_fd_lt (n : String) (a : Bool) (b rest : List Stmt) :
    ((b.map sizeOf).sum) < (((Stmt.functionDef n a b :: rest).map sizeOf).sum) :=
  measure_children_lt (Stmt.functionDef n a b) rest

/-- `measure_children_lt` specialized to a compound statement. -/
theorem measure_other_lt (cs rest : List Stmt) :
    ((cs.map sizeOf).sum) < (((Stmt.other cs :: rest).map sizeOf).sum) :=
  measure_children_lt (Stmt.other cs) rest

/-- `ast.walk`: pop a node from the front of the deque, extend the deque
with its children, yield the node (faithful to the CPython implementation,
which the driver at lines 126-127 iterates).  Note the traversal is
breadth-first. -/
def walkAux (q : List Stmt) : List Stmt :=
  match q with
  | [] => []
  | s :: rest => s :: walkAux (rest ++ children s)
termination_by (q.map sizeOf).sum
decreasing_by
  simp only [List.map_append, List.sum_append, List.map_cons, List.sum_cons]
  have := children_sizeOf_lt s
  omega

/-- `ast.walk(tree)` restricted to statement nodes.  The real generator
yields the `Module` root first; it is not a function node, so dropping it
is invisible to the filter of the driver. -/
def walk (t : PyModule) : List Stmt := walkAux t.body

/-- Pre-order (document-order) traversal of a forest of statements: each
node before its descendants, fully, before its later siblings. -/
def preorderList (l : List Stmt) : List Stmt :=
  match l with
  | [] => []
  | s :: rest => s :: (preorderList (children s) ++ preorderList rest)
termination_by (l.map sizeOf).sum
decreasing_by
  · have := children_sizeOf_lt s
    simp only [List.map_cons, List.sum_cons]
    omega
  · simp only [List.map_cons, List.sum_cons]
    have : 0 < sizeOf s := by cases s <;> simp
    omega

/-- Pre-order traversal of the whole tree. -/
def preorder (t : PyModule) : List Stmt := preorderList t.body

/- ## Path-instrumented traversals

Python mutates AST nodes in place; node identity is modelled by the path
of child indices (in original-tree coordinates) leading to a node.  The
walk is instrumented to carry the path of each node it yields. -/

/-- The children of a node, each tagged with its path (parent path plus
its index in the body). -/
def childrenP (p : List Nat) (s : Stmt) : List (List Nat × Stmt) :=
  (children s).enum.map (fun ic => (p ++ [ic.1], ic.2))

theorem childrenP_map_sizeOf (p : List Nat) (s : Stmt) :
    ((childrenP p s).map (fun ps => sizeOf ps.2)).sum = ((children s).map sizeOf).sum := by
  unfold childrenP
  rw [List.map_map]
  have h1 : ((fun ps : List Nat × Stmt => sizeOf ps.2) ∘ fun ic : Nat × Stmt => (p ++ [ic.1], ic.2))
      = (fun c : Stmt => sizeOf c) ∘ Prod.snd := rfl
  rw [h1, ← List.map_map, List.enum_map_snd]

theorem childrenP_map_snd (p : List Nat) (s : Stmt) :
    (childrenP p s).map Prod.snd = children s := by
  unfold childrenP
  rw [List.map_map]
  have h1 : (Prod.snd ∘ fun ic : Nat × Stmt => (p ++ [ic.1], ic.2)) = Prod.snd := rfl
  rw [h1, List.enum_map_snd]

/-- `ast.walk` instrumented with paths: same BFS deque discipline as
`walkAux`, each node paired with its original-coordinates path. -/
def walkPAux (q : List (List Nat × Stmt)) : List (List Nat × Stmt) :=
  match q with
  | [] => []
  | (p, s) :: rest => (p, s) :: walkPAux (rest ++ childrenP p s)
termination_by (q.map (fun ps => sizeOf ps.2)).sum
decreasing_by
  simp only [List.map_append, List.sum_append, List.map_cons, List.sum_cons,
    childrenP_map_sizeOf]
  have := children_sizeOf_lt s
  omega

/-- The instrumented walk of the whole tree (top-level statement `i` has
path `[i]`). -/
def walkP (t : PyModule) : List (List Nat × Stmt) :=
  walkPAux (t.body.enum.map (fun is => ([is.1], is.2)))

/-- Pre-order traversal with paths: `p` is the parent path and `i` the
index of the first element of `l` in the parent body. -/
def prePList (p : List Nat) (i : Nat) (l : List Stmt) : List (List Nat × Stmt) :=
  match l with
  | [] => []
  | s :: rest =>
    (p ++ [i], s) :: (prePList (p ++ [i]) 0 (children s) ++ prePList p (i + 1) rest)
termination_by (l.map sizeOf).sum
decreasing_by
  · have := children_sizeOf_lt s
    simp only [List.map_cons, List.sum_cons]
    omega
  · simp only [List.map_cons, List.sum_cons]
    have : 0 < sizeOf s := by cases s <;> simp_arith
    omega

/-- The pre-order enumeration of one node together with its subtree. -/
def nodePre : List Nat × Stmt → List (List Nat × Stmt)
  | (p, s) => (p, s) :: prePList p 0 (children s)

/-- Pre-order enumeration, with paths, of the whole tree. -/
def preP (t : PyModule) : List (List Nat × Stmt) := prePList [] 0 t.body

/- ## Accumulated patches -/

/-- Look a path up in the association list of performed patches (the first
matching entry wins, as with successive in-place mutations of distinct
nodes there is at most one entry per path). -/
def lookupPath (done : List (List Nat × List Char)) (p : List Nat) : Option (List Char) :=
  match done with
  | [] => none
  | (q, d) :: rest => if q = p then some d else lookupPath rest p

mutual
/-- The tree state of the driver: the original statement at path `p` with
every docstring patch of `done` applied below it.  A function node whose
path is in `done` receives `patchStmt` (the in-place
`node.body = [ast.Expr(...)] + node.body` of lines 136-137); all other
nodes are unchanged apart from their descendants. -/
def applyDocsStmt (done : List (List Nat × List Char)) (p : List Nat) : Stmt → Stmt
  | .functionDef n a b =>
    match lookupPath done p with
    | some d => patchStmt (Stmt.functionDef n a (applyDocsList done p 0 b)) d
    | none => Stmt.functionDef n a (applyDocsList done p 0 b)
  | .exprConst v => .exprConst v
  | .other cs => .other (applyDocsList done p 0 cs)

/-- Body-wise companion of `applyDocsStmt`: element `j` of `l` sits at
path `p ++ [i + j]` of the original tree. -/
def applyDocsList (done : List (List Nat × List Char)) (p : List Nat) (i : Nat) :
    List Stmt → List Stmt
  | [] => []
  | s :: rest => applyDocsStmt done (p ++ [i]) s :: applyDocsList done p (i + 1) rest
end

/-- The whole tree with the patches of `done` applied. -/
def applyDocs (done : List (List Nat × List Char)) (t : PyModule) : PyModule :=
  ⟨applyDocsList done [] 0 t.body⟩

/- ## The driver (src/autodocstring.py lines 126-140) -/

/-- The two per-function console messages of the driver:
`print(f"Generating docstring to ...")` before the attempt, and the
`except Exception` handler message naming the function. -/
inductive LogEvent where
  | generating (name : String)
  | errorSkip (name : String)
deriving DecidableEq

/-- Observable outcome of one run of `main` after the file was parsed:
the successful patches in order, the successive whole-file writes, the
console log, and the final in-memory tree. -/
structure RunResult where
  done : List (List Nat × List Char)
  writes : List (List Char)
  log : List LogEvent
  finalTree : PyModule

/-- The function nodes the driver loop visits: `ast.walk` filtered by the
isinstance check, in walk (BFS) order, with their paths.  The walk
enqueues the children of a node before the driver patches it, so the
yielded sequence is the BFS of the original tree even though patching is
interleaved. -/
def funcsP (t : PyModule) : List (List Nat × Stmt) :=
  (walkP t).filter (fun ps => isFuncStmt ps.2)

/-- The driver loop from the current position: for each function node,
call `generate_docstring` (line 131); on an exception log and `continue`
(lines 132-135); on success patch the node (lines 136-137, recorded by
extending `done`), then `ast.unparse` the entire tree and overwrite the
file (lines 138-140, recorded by appending to `writes`).  `unparse`
abstracts `ast.unparse` and `oracle s n` the raw response text for
function `s` on attempt `n` (the prompt is built from the source segment
of `s`, fixed for the whole run). -/
def runFrom (unparse : PyModule → List Char) (oracle : Stmt → Nat → List Char)
    (t : PyModule) :
    List (List Nat × Stmt) → List (List Nat × List Char) → List (List Char) →
      List LogEvent → RunResult
  | [], done, ws, log => ⟨done, ws, log, applyDocs done t⟩
  | (p, s) :: rest, done, ws, log =>
    match generate_docstring (oracle s) 2 with
    | .error _ =>
      runFrom unparse oracle t rest done ws
        (log ++ [LogEvent.generating (nameOf s), LogEvent.errorSkip (nameOf s)])
    | .ok d =>
      runFrom unparse oracle t rest (done ++ [(p, d)])
        (ws ++ [unparse (applyDocs (done ++ [(p, d)]) t)])
        (log ++ [LogEvent.generating (nameOf s)])

/-- One run of `main` on an already-parsed tree. -/
def run (unparse : PyModule → List Char) (oracle : Stmt → Nat → List Char)
    (t : PyModule) : RunResult :=
  runFrom unparse oracle t (funcsP t) [] [] []

/-- The successful patches a list of visited functions produces: by
`generate_docstring`, function `s` succeeds exactly when its first
response contains the marker, and the patched text is the extraction from
that first response. -/
def succsOf (oracle : Stmt → Nat → List Char) (fs : List (List Nat × Stmt)) :
    List (List Nat × List Char) :=
  fs.filterMap (fun ps => (extract_docstring (oracle ps.2 0)).map (fun d => (ps.1, d)))

/-- The console log a list of visited functions produces. -/
def logOf (oracle : Stmt → Nat → List Char) (fs : List (List Nat × Stmt)) :
    List LogEvent :=
  fs.flatMap (fun ps =>
    match extract_docstring (oracle ps.2 0) with
    | some _ => [LogEvent.generating (nameOf ps.2)]
    | none => [LogEvent.generating (nameOf ps.2), LogEvent.errorSkip (nameOf ps.2)])

/-- The sequence of file contents the driver writes while performing the
patches of `new`, having already performed those of `done`: one whole-tree
serialization per successful patch, immediately after it. -/
def writesOf (u : PyModule → List Char) (t : PyModule)
    (done : List (List Nat × List Char)) :
    List (List Nat × List Char) → List (List Char)
  | [] => []
  | x :: rest => u (applyDocs (done ++ [x]) t) :: writesOf u t (done ++ [x]) rest

/-- The docstring a function node receives when its first response admits
extraction. -/
def docOfResp (oracle : Stmt → Nat → List Char) (s : Stmt) : List Char :=
  (extract_docstring (oracle s 0)).getD []

mutual
/-- The fully documented tree: every function node, at every depth, with
its docstring prepended (the final tree of an all-successful run). -/
def docAllStmt (oracle : Stmt → Nat → List Char) : Stmt → Stmt
  | .functionDef n a b =>
    patchStmt (Stmt.functionDef n a (docAllList oracle b))
      (docOfResp oracle (.functionDef n a b))
  | .exprConst v => .exprConst v
  | .other cs => .other (docAllList oracle cs)

/-- Body-wise companion of `docAllStmt`. -/
def docAllList (oracle : Stmt → Nat → List Char) : List Stmt → List Stmt
  | [] => []
  | s :: rest => docAllStmt oracle s :: docAllList oracle rest
end

/-- The fully documented whole tree. -/
def docAll (oracle : Stmt → Nat → List Char) (t : PyModule) : PyModule :=
  ⟨docAllList oracle t.body⟩

/-- The function nodes of a tree in document order. -/
def funcList (t : PyModule) : List Stmt := (preorder t).filter isFuncStmt

mutual
/-- Modelled from the spec: `ast.unparse` is Python standard library code,
external to this repository; spec section 4.1 only promises that serialize
regenerates a canonical textual form of the whole tree.  All driver
theorems are parameterized over the serializer; this concrete canonical
form is used in witnesses and counterexamples. -/
def serializeStmt : Stmt → List Char
  | .functionDef n a b =>
    ("(").toList ++ (if a then ("async def ").toList else ("def ").toList)
      ++ n.toList ++ (":").toList ++ serializeList b ++ (")").toList
  | .exprConst v => ("(doc ").toList ++ v ++ (")").toList
  | .other cs => ("(stmt ").toList ++ serializeList cs ++ (")").toList

/-- Serialization of a body, in order. -/
def serializeList : List Stmt → List Char
  | [] => []
  | s :: rest => serializeStmt s ++ serializeList rest
end

/-- Serialization of the whole tree. -/
def serialize (t : PyModule) : List Char := serializeList t.body

/-- Bridge between the boolean prefix test and the prefix relation. -/
theorem isPrefixOf_true_iff (l1 l2 : List Char) : l1.isPrefixOf l2 = true ↔ l1 <+: l2 :=
  List.isPrefixOf_iff_prefix

/-- A take of a list is one of its prefixes. -/
theorem take_isPrefix (n : Nat) (l : List Char) : l.take n <+: l :=
  List.take_prefix n l

/- ## Characterization of pyFind -/

theorem findAux_eq_some_iff (pat : List Char) :
    ∀ (s : List Char) (i k : Nat),
      findAux pat s i = some k ↔
        ∃ m, k = i + m ∧ pat <+: s.drop m ∧ ∀ m' < m, ¬ pat <+: s.drop m' := by
  intro s
  induction s with
  | nil =>
    intro i k
    rw [findAux]
    by_cases h : pat.isPrefixOf ([] : List Char)
    · rw [isPrefixOf_true_iff] at h
      simp only [h, if_pos ((isPrefixOf_true_iff _ _).mpr h)]
      constructor
      · rintro ⟨rfl⟩
        exact ⟨0, by omega, by simpa using h, by omega⟩
      · rintro ⟨m, rfl, _, hmin⟩
        have hm : m = 0 := by
          by_contra hne
          exact hmin 0 (by omega) (by simpa using h)
        simp [hm]
    · rw [if_neg h]
      rw [isPrefixOf_true_iff] at h
      constructor
      · intro hc; exact absurd hc (by simp)
      · rintro ⟨m, rfl, hp, _⟩
        exact absurd hp (by simpa using h)
  | cons c t ih =>
    intro i k
    rw [findAux]
    by_cases h : pat <+: (c :: t)
    · rw [if_pos ((isPrefixOf_true_iff _ _).mpr h)]
      constructor
      · rintro ⟨rfl⟩
        exact ⟨0, by omega, by simpa using h, by omega⟩
      · rintro ⟨m, rfl, _, hmin⟩
        have hm : m = 0 := by
          by_contra hne
          exact hmin 0 (by omega) (by simpa using h)
        simp [hm]
    · rw [if_neg (by simpa [isPrefixOf_true_iff] using h)]
      rw [ih (i + 1) k]
      constructor
      · rintro ⟨m, rfl, hp, hmin⟩
        refine ⟨m + 1, by omega, by simpa using hp, ?_⟩
        intro m' hm'
        match m' with
        | 0 => simpa using h
        | n + 1 =>
          have := hmin n (by omega)
          simpa using this
      · rintro ⟨m, hk, hp, hmin⟩
        have hm : m ≠ 0 := by
          rintro rfl
          exact h (by simpa using hp)
        obtain ⟨n, rfl⟩ : ∃ n, m = n + 1 := ⟨m - 1, by omega⟩
        refine ⟨n, by omega, by simpa using hp, ?_⟩
        intro m' hm'
        have := hmin (m' + 1) (by omega)
        simpa using this

theorem findAux_eq_none_iff (pat : List Char) :
    ∀ (s : List Char) (i : Nat),
      findAux pat s i = none ↔ ∀ m, ¬ pat <+: s.drop m := by
  intro s
  induction s with
  | nil =>
    intro i
    rw [findAux]
    by_cases h : pat <+: ([] : List Char)
    · rw [if_pos ((isPrefixOf_true_iff _ _).mpr h)]
      constructor
      · intro hc; exact absurd hc (by simp)
      · intro hall; exact absurd (by simpa using h) (hall 0)
    · rw [if_neg (by simpa [isPrefixOf_true_iff] using h)]
      simp only [true_iff]
      intro m; simpa using h
  | cons c t ih =>
    intro i
    rw [findAux]
    by_cases h : pat <+: (c :: t)
    · rw [if_pos ((isPrefixOf_true_iff _ _).mpr h)]
      constructor
      · intro hc; exact absurd hc (by simp)
      · intro hall; exact absurd (by simpa using h) (hall 0)
    · rw [if_neg (by simpa [isPrefixOf_true_iff] using h)]
      rw [ih (i + 1)]
      constructor
      · intro hall m
        match m with
        | 0 => simpa using h
        | n + 1 => simpa using hall n
      · intro hall m
        simpa using hall (m + 1)

theorem pyFind_eq_some_iff (s pat : List Char) (st k : Nat) :
    pyFind s pat st = some k ↔
      st ≤ k ∧ occursAt s pat k ∧ ∀ j, st ≤ j → j < k → ¬ occursAt s pat j := by
  unfold pyFind occursAt
  rw [findAux_eq_some_iff]
  constructor
  · rintro ⟨m, rfl, hp, hmin⟩
    refine ⟨by omega, ?_, ?_⟩
    · rwa [List.drop_drop] at hp
    · intro j hj1 hj2
      have := hmin (j - st) (by omega)
      rw [List.drop_drop] at this
      have he : st + (j - st) = j := by omega
      rwa [he] at this
  · rintro ⟨hle, hp, hmin⟩
    refine ⟨k - st, by omega, ?_, ?_⟩
    · rw [List.drop_drop]
      have he : st + (k - st) = k := by omega
      rwa [he]
    · intro m' hm'
      rw [List.drop_drop]
      exact hmin (st + m') (by omega) (by omega)

theorem pyFind_eq_none_iff (s pat : List Char) (st : Nat) :
    pyFind s pat st = none ↔ ∀ j, st ≤ j → ¬ occursAt s pat j := by
  unfold pyFind occursAt
  rw [findAux_eq_none_iff]
  constructor
  · intro hall j hj
    have := hall (j - st)
    rw [List.drop_drop] at this
    have he : st + (j - st) = j := by omega
    rwa [he] at this
  · intro hall m
    rw [List.drop_drop]
    exact hall (st + m) (by omega)

/- ## The walk is a breadth-first permutation of document order -/

theorem preorderList_append (a b : List Stmt) :
    preorderList (a ++ b) = preorderList a ++ preorderList b := by
  induction a with
  | nil => simp [preorderList]
  | cons s rest ih =>
    rw [List.cons_append, preorderList, preorderList]
    simp [ih]

/-- `ast.walk` yields every node of the forest exactly once: it is a
permutation of the pre-order traversal. -/
theorem walkAux_perm (q : List Stmt) : (walkAux q).Perm (preorderList q) := by
  match q with
  | [] => rw [walkAux, preorderList]
  | s :: rest =>
    rw [walkAux, preorderList]
    have ih := walkAux_perm (rest ++ children s)
    refine List.Perm.cons s (ih.trans ?_)
    rw [preorderList_append]
    exact List.perm_append_comm
termination_by (q.map sizeOf).sum
decreasing_by
  simp only [List.map_append, List.sum_append, List.map_cons, List.sum_cons]
  have := children_sizeOf_lt s
  omega

/-- The instrumented walk only decorates the plain walk with paths. -/
theorem walkPAux_map_snd (q : List (List Nat × Stmt)) :
    (walkPAux q).map Prod.snd = walkAux (q.map Prod.snd) := by
  match q with
  | [] => rw [walkPAux]; simp [walkAux]
  | (p, s) :: rest =>
    rw [walkPAux]
    have ih := walkPAux_map_snd (rest ++ childrenP p s)
    simp only [List.map_append, childrenP_map_snd] at ih
    simp only [List.map_cons, ih, List.map_append]
    rw [walkAux]
termination_by (q.map (fun ps => sizeOf ps.2)).sum
decreasing_by
  simp only [List.map_append, List.sum_append, List.map_cons, List.sum_cons,
    childrenP_map_sizeOf]
  have := children_sizeOf_lt s
  omega

theorem walkP_map_snd (t : PyModule) : (walkP t).map Prod.snd = walk t := by
  unfold walkP walk
  rw [walkPAux_map_snd, List.map_map]
  have h1 : (Prod.snd ∘ fun is : Nat × Stmt => (([is.1] : List Nat), is.2)) = Prod.snd := rfl
  rw [h1, List.enum_map_snd]

theorem enumFrom_map_flatMap_nodePre (l : List Stmt) (p : List Nat) :
    ∀ i, ((List.enumFrom i l).map (fun ic => (p ++ [ic.1], ic.2))).flatMap nodePre
      = prePList p i l := by
  induction l with
  | nil => intro i; rw [prePList]; simp
  | cons s rest ih =>
    intro i
    rw [List.enumFrom_cons, prePList]
    simp only [List.map_cons, List.flatMap_cons, ih (i + 1)]
    rw [nodePre, List.cons_append]

/-- The paths-instrumented walk is a permutation of the paths-instrumented
pre-order enumeration. -/
theorem walkPAux_perm (q : List (List Nat × Stmt)) :
    (walkPAux q).Perm (q.flatMap nodePre) := by
  match q with
  | [] => rw [walkPAux]; simp
  | (p, s) :: rest =>
    rw [walkPAux]
    have ih := walkPAux_perm (rest ++ childrenP p s)
    rw [List.flatMap_append] at ih
    have hc : (childrenP p s).flatMap nodePre = prePList p 0 (children s) := by
      have := enumFrom_map_flatMap_nodePre (children s) p 0
      simpa [childrenP] using this
    rw [hc] at ih
    simp only [List.flatMap_cons, nodePre, List.cons_append]
    refine List.Perm.cons (p, s) (ih.trans ?_)
    exact List.perm_append_comm
termination_by (q.map (fun ps => sizeOf ps.2)).sum
decreasing_by
  simp only [List.map_append, List.sum_append, List.map_cons, List.sum_cons,
    childrenP_map_sizeOf]
  have := children_sizeOf_lt s
  omega

theorem walkP_perm (t : PyModule) : (walkP t).Perm (preP t) := by
  unfold walkP preP
  have h := walkPAux_perm (t.body.enum.map (fun is => (([is.1] : List Nat), is.2)))
  have h2 : (t.body.enum.map (fun is : Nat × Stmt => (([is.1] : List Nat), is.2))).flatMap nodePre
      = prePList [] 0 t.body := by
    have h3 : t.body.enum = List.enumFrom 0 t.body := rfl
    have h4 : (fun is : Nat × Stmt => (([is.1] : List Nat), is.2))
        = (fun ic : Nat × Stmt => (([] : List Nat) ++ [ic.1], ic.2)) := rfl
    rw [h3, h4, enumFrom_map_flatMap_nodePre t.body [] 0]
  rwa [h2] at h

/- ## Shapes and uniqueness of pre-order paths -/

theorem mem_prePList_shape (l : List Stmt) (p : List Nat) (i : Nat) (q : List Nat)
    (s' : Stmt) (hm : (q, s') ∈ prePList p i l) :
    ∃ j t, i ≤ j ∧ q = p ++ j :: t := by
  match l with
  | [] => rw [prePList] at hm; simp at hm
  | s :: rest =>
    rw [prePList] at hm
    rcases List.mem_cons.mp hm with heq | hmem
    · refine ⟨i, [], Nat.le_refl i, ?_⟩
      have := congrArg Prod.fst heq
      simpa using this
    · rcases List.mem_append.mp hmem with h1 | h2
      · obtain ⟨j, t, hj, hq⟩ := mem_prePList_shape (children s) (p ++ [i]) 0 q s' h1
        refine ⟨i, j :: t, Nat.le_refl i, ?_⟩
        rw [hq]
        simp
      · obtain ⟨j, t, hj, hq⟩ := mem_prePList_shape rest p (i + 1) q s' h2
        exact ⟨j, t, by omega, hq⟩
termination_by (l.map sizeOf).sum
decreasing_by
  · have := children_sizeOf_lt s
    simp only [List.map_cons, List.sum_cons]
    omega
  · simp only [List.map_cons, List.sum_cons]
    have : 0 < sizeOf s := by cases s <;> simp_arith
    omega

/-- Distinct nodes of the tree have distinct paths. -/
theorem prePList_paths_nodup (l : List Stmt) (p : List Nat) (i : Nat) :
    ((prePList p i l).map Prod.fst).Nodup := by
  match l with
  | [] => rw [prePList]; simp
  | s :: rest =>
    rw [prePList]
    simp only [List.map_cons, List.map_append]
    rw [List.nodup_cons]
    refine ⟨?_, ?_⟩
    · intro hmem
      rcases List.mem_append.mp hmem with h1 | h2
      · obtain ⟨⟨q, g⟩, hq, he⟩ := List.mem_map.mp h1
        obtain ⟨j, t, hj, hshape⟩ := mem_prePList_shape (children s) (p ++ [i]) 0 q g hq
        rw [hshape] at he
        have hlen := congrArg List.length he
        simp [List.length_append] at hlen
      · obtain ⟨⟨q, g⟩, hq, he⟩ := List.mem_map.mp h2
        obtain ⟨j, t, hj, hshape⟩ := mem_prePList_shape rest p (i + 1) q g hq
        rw [hshape] at he
        have hc := List.append_cancel_left he
        have : j = i := by
          have := congrArg (fun l => l.head?) hc
          simpa using this
        omega
    · refine List.Nodup.append ?_ ?_ ?_
      · exact prePList_paths_nodup (children s) (p ++ [i]) 0
      · exact prePList_paths_nodup rest p (i + 1)
      · intro a h1 h2
        obtain ⟨⟨q, g⟩, hq, he⟩ := List.mem_map.mp h1
        obtain ⟨j, t, hj, hshape⟩ := mem_prePList_shape (children s) (p ++ [i]) 0 q g hq
        obtain ⟨⟨q2, g2⟩, hq2, he2⟩ := List.mem_map.mp h2
        obtain ⟨j2, t2, hj2, hshape2⟩ := mem_prePList_shape rest p (i + 1) q2 g2 hq2
        have hae : a = p ++ i :: j :: t := by
          rw [← he, hshape]
          simp
        have hae2 : a = p ++ j2 :: t2 := by rw [← he2, hshape2]
        rw [hae] at hae2
        have hc := List.append_cancel_left hae2
        have : i = j2 := by
          have := congrArg (fun l => l.head?) hc
          simpa using this
        omega
termination_by (l.map sizeOf).sum
decreasing_by
  · have := children_sizeOf_lt s
    simp only [List.map_cons, List.sum_cons]
    omega
  · simp only [List.map_cons, List.sum_cons]
    have : 0 < sizeOf s := by cases s <;> simp_arith
    omega

/- ## lookupPath -/

theorem lookupPath_eq_some_of_mem (done : List (List Nat × List Char))
    (hnd : (done.map Prod.fst).Nodup) (p : List Nat) (d : List Char)
    (hm : (p, d) ∈ done) : lookupPath done p = some d := by
  induction done with
  | nil => simp at hm
  | cons x rest ih =>
    obtain ⟨q, e⟩ := x
    rw [lookupPath]
    simp only [List.map_cons, List.nodup_cons] at hnd
    rcases List.mem_cons.mp hm with heq | hmem
    · have h1 : q = p := (congrArg Prod.fst heq).symm
      have h2 : d = e := congrArg Prod.snd heq
      rw [if_pos h1, h2]
    · have hne : q ≠ p := by
        intro hqp
        subst hqp
        exact hnd.1 (List.mem_map.mpr ⟨(q, d), hmem, rfl⟩)
      rw [if_neg hne]
      exact ih hnd.2 hmem

theorem lookupPath_mem (done : List (List Nat × List Char)) (p : List Nat)
    (d : List Char) (h : lookupPath done p = some d) : (p, d) ∈ done := by
  induction done with
  | nil => simp [lookupPath] at h
  | cons x rest ih =>
    obtain ⟨q, e⟩ := x
    rw [lookupPath] at h
    by_cases hqp : q = p
    · rw [if_pos hqp] at h
      subst hqp
      obtain ⟨rfl⟩ := h
      exact List.mem_cons_self ..
    · rw [if_neg hqp] at h
      exact List.mem_cons_of_mem _ (ih h)

/- ## The master lemma of the driver loop -/

/-- With the default `tries=2`, one call decides on the first response:
extraction success returns it, and a no-marker response raises
the `NameError` immediately (no second generation call is made). -/
theorem generate_docstring_two (o : Nat → List Char) :
    generate_docstring o 2 = match extract_docstring (o 0) with
      | some d => Except.ok d
      | none => Except.error PyErr.nameError := rfl

/-- Closed form of the driver loop: the successful patches are exactly the
visited functions whose first response admits extraction, in visit order;
one whole-tree serialization is written to the file per success, each of
the tree holding all patches performed so far; the log records a
generating line per function and an error line per failure. -/
theorem runFrom_spec (u : PyModule → List Char) (oracle : Stmt → Nat → List Char)
    (t : PyModule) (fs : List (List Nat × Stmt)) :
    ∀ (done : List (List Nat × List Char)) (ws : List (List Char)) (log : List LogEvent),
      runFrom u oracle t fs done ws log =
        ⟨done ++ succsOf oracle fs,
         ws ++ writesOf u t done (succsOf oracle fs),
         log ++ logOf oracle fs,
         applyDocs (done ++ succsOf oracle fs) t⟩ := by
  induction fs with
  | nil =>
    intro done ws log
    simp [runFrom, succsOf, logOf, writesOf]
  | cons x rest ih =>
    intro done ws log
    obtain ⟨p, s⟩ := x
    cases hx : extract_docstring (oracle s 0) with
    | none =>
      have hstep : runFrom u oracle t ((p, s) :: rest) done ws log
          = runFrom u oracle t rest done ws
              (log ++ [LogEvent.generating (nameOf s), LogEvent.errorSkip (nameOf s)]) := by
        rw [runFrom, generate_docstring_two, hx]
      have hsucc : succsOf oracle ((p, s) :: rest) = succsOf oracle rest := by
        simp [succsOf, List.filterMap_cons, hx]
      have hlog : logOf oracle ((p, s) :: rest)
          = LogEvent.generating (nameOf s) :: LogEvent.errorSkip (nameOf s) :: logOf oracle rest := by
        simp [logOf, hx]
      rw [hstep, ih, hsucc, hlog]
      simp [List.append_assoc]
    | some d =>
      have hstep : runFrom u oracle t ((p, s) :: rest) done ws log
          = runFrom u oracle t rest (done ++ [(p, d)])
              (ws ++ [u (applyDocs (done ++ [(p, d)]) t)])
              (log ++ [LogEvent.generating (nameOf s)]) := by
        rw [runFrom, generate_docstring_two, hx]
      have hsucc : succsOf oracle ((p, s) :: rest) = (p, d) :: succsOf oracle rest := by
        simp [succsOf, List.filterMap_cons, hx]
      have hlog : logOf oracle ((p, s) :: rest)
          = LogEvent.generating (nameOf s) :: logOf oracle rest := by
        simp [logOf, hx]
      rw [hstep, ih, hsucc, hlog, writesOf]
      simp [List.append_assoc]

/-- Closed form of a whole run. -/
theorem run_spec (u : PyModule → List Char) (oracle : Stmt → Nat → List Char)
    (t : PyModule) :
    run u oracle t =
      ⟨succsOf oracle (funcsP t),
       writesOf u t [] (succsOf oracle (funcsP t)),
       logOf oracle (funcsP t),
       applyDocs (succsOf oracle (funcsP t)) t⟩ := by
  unfold run
  rw [runFrom_spec]
  simp

/- ## writesOf facts -/

theorem writesOf_length (u : PyModule → List Char) (t : PyModule) :
    ∀ (S done : List (List Nat × List Char)),
      (writesOf u t done S).length = S.length := by
  intro S
  induction S with
  | nil => intro done; rfl
  | cons x rest ih =>
    intro done
    rw [writesOf]
    simp [ih]

theorem writesOf_getElem (u : PyModule → List Char) (t : PyModule) :
    ∀ (S done : List (List Nat × List Char)) (i : Nat), i < S.length →
      (writesOf u t done S)[i]? = some (u (applyDocs (done ++ S.take (i + 1)) t)) := by
  intro S
  induction S with
  | nil => intro done i h; simp at h
  | cons x rest ih =>
    intro done i h
    match i with
    | 0 =>
      rw [writesOf, List.getElem?_cons_zero]
      simp only [List.take_succ_cons, List.take_zero]
    | k + 1 =>
      rw [writesOf, List.getElem?_cons_succ]
      rw [ih (done ++ [x]) k (by simpa using h)]
      simp only [List.take_succ_cons, List.append_assoc, List.singleton_append]

/- ## All successful patches applied = the fully documented tree -/

theorem applyDocsList_eq_docAllList (D : List (List Nat × List Char))
    (oracle : Stmt → Nat → List Char) (l : List Stmt) (p : List Nat) (i : Nat)
    (H : ∀ q g, (q, g) ∈ prePList p i l → isFuncStmt g = true →
        lookupPath D q = some (docOfResp oracle g)) :
    applyDocsList D p i l = docAllList oracle l := by
  match l with
  | [] => rw [applyDocsList, docAllList]
  | .functionDef n a b :: rest =>
    rw [applyDocsList, docAllList]
    have htail : applyDocsList D p (i + 1) rest = docAllList oracle rest := by
      apply applyDocsList_eq_docAllList D oracle rest p (i + 1)
      intro q g hq hf
      apply H q g _ hf
      rw [prePList]
      exact List.mem_cons_of_mem _ (List.mem_append_right _ hq)
    rw [htail]
    congr 1
    rw [applyDocsStmt, docAllStmt]
    have hb : applyDocsList D (p ++ [i]) 0 b = docAllList oracle b := by
      apply applyDocsList_eq_docAllList D oracle b (p ++ [i]) 0
      intro q g hq hf
      apply H q g _ hf
      rw [prePList]
      refine List.mem_cons_of_mem _ (List.mem_append_left _ ?_)
      simpa [children] using hq
    have hl : lookupPath D (p ++ [i])
        = some (docOfResp oracle (.functionDef n a b)) := by
      apply H (p ++ [i]) (.functionDef n a b) _ rfl
      rw [prePList]
      exact List.mem_cons_self ..
    rw [hb, hl]
  | .exprConst v :: rest =>
    rw [applyDocsList, docAllList]
    have htail : applyDocsList D p (i + 1) rest = docAllList oracle rest := by
      apply applyDocsList_eq_docAllList D oracle rest p (i + 1)
      intro q g hq hf
      apply H q g _ hf
      rw [prePList]
      exact List.mem_cons_of_mem _ (List.mem_append_right _ hq)
    rw [htail]
    rfl
  | .other cs :: rest =>
    rw [applyDocsList, docAllList]
    have htail : applyDocsList D p (i + 1) rest = docAllList oracle rest := by
      apply applyDocsList_eq_docAllList D oracle rest p (i + 1)
      intro q g hq hf
      apply H q g _ hf
      rw [prePList]
      exact List.mem_cons_of_mem _ (List.mem_append_right _ hq)
    rw [htail]
    congr 1
    rw [applyDocsStmt, docAllStmt]
    congr 1
    apply applyDocsList_eq_docAllList D oracle cs (p ++ [i]) 0
    intro q g hq hf
    apply H q g _ hf
    rw [prePList]
    refine List.mem_cons_of_mem _ (List.mem_append_left _ ?_)
    simpa [children] using hq
termination_by (l.map sizeOf).sum
decreasing_by
  all_goals first
    | exact measure_tail_lt _ _
    | exact measure_fd_lt _ _ _ _
    | exact measure_other_lt _ _

theorem applyDocs_eq_docAll (D : List (List Nat × List Char))
    (oracle : Stmt → Nat → List Char) (t : PyModule)
    (H : ∀ q g, (q, g) ∈ preP t → isFuncStmt g = true →
        lookupPath D q = some (docOfResp oracle g)) :
    applyDocs D t = docAll oracle t := by
  unfold applyDocs docAll
  congr 1
  apply applyDocsList_eq_docAllList D oracle t.body [] 0
  intro q g hq hf
  exact H q g (by simpa [preP] using hq) hf

/- ## Subtrees holding no patched path are untouched -/

theorem applyDocsList_id (D : List (List Nat × List Char)) (l : List Stmt)
    (p : List Nat) (i : Nat)
    (h : ∀ q, q ∈ D.map Prod.fst → ¬ p <+: q) :
    applyDocsList D p i l = l := by
  have hsub : ∀ q, q ∈ D.map Prod.fst → ¬ (p ++ [i]) <+: q := by
    intro q hq hpre
    exact h q hq ((p.prefix_append [i]).trans hpre)
  have hnone : lookupPath D (p ++ [i]) = none := by
    cases hl : lookupPath D (p ++ [i]) with
    | none => rfl
    | some d =>
      exfalso
      have hm := lookupPath_mem D (p ++ [i]) d hl
      exact hsub (p ++ [i]) (List.mem_map.mpr ⟨(p ++ [i], d), hm, rfl⟩)
        (List.prefix_refl _)
  match l with
  | [] => rw [applyDocsList]
  | .functionDef n a b :: rest =>
    rw [applyDocsList, applyDocsList_id D rest p (i + 1) h]
    congr 1
    rw [applyDocsStmt, hnone, applyDocsList_id D b (p ++ [i]) 0 hsub]
  | .exprConst v :: rest =>
    rw [applyDocsList, applyDocsList_id D rest p (i + 1) h]
    rfl
  | .other cs :: rest =>
    rw [applyDocsList, applyDocsList_id D rest p (i + 1) h]
    congr 1
    rw [applyDocsStmt, applyDocsList_id D cs (p ++ [i]) 0 hsub]
termination_by (l.map sizeOf).sum
decreasing_by
  all_goals first
    | exact measure_tail_lt _ _
    | exact measure_fd_lt _ _ _ _
    | exact measure_other_lt _ _

/-- A statement at and below which no patched path lies is returned
unchanged by the accumulated-patch map. -/
theorem applyDocsStmt_id (D : List (List Nat × List Char)) (s : Stmt)
    (p : List Nat) (h : ∀ q, q ∈ D.map Prod.fst → ¬ p <+: q) :
    applyDocsStmt D p s = s := by
  have hnone : lookupPath D p = none := by
    cases hl : lookupPath D p with
    | none => rfl
    | some d =>
      exfalso
      have hm := lookupPath_mem D p d hl
      exact h p (List.mem_map.mpr ⟨(p, d), hm, rfl⟩) (List.prefix_refl _)
  cases s with
  | functionDef n a b =>
    rw [applyDocsStmt, hnone, applyDocsList_id D b p 0 h]
  | exprConst v => rfl
  | other cs => rw [applyDocsStmt, applyDocsList_id D cs p 0 h]

/- ## Function lists of the fully documented tree -/

theorem preorder_docAllList_funcs (oracle : Stmt → Nat → List Char) (l : List Stmt) :
    (preorderList (docAllList oracle l)).filter isFuncStmt
      = ((preorderList l).filter isFuncStmt).map (docAllStmt oracle) := by
  match l with
  | [] => simp [docAllList, preorderList]
  | .functionDef n a b :: rest =>
    have ihb := preorder_docAllList_funcs oracle b
    have ihr := preorder_docAllList_funcs oracle rest
    simp [docAllList, docAllStmt, patchStmt, preorderList, children,
      List.filter_cons, List.filter_append, isFuncStmt, ihb, ihr]
  | .exprConst v :: rest =>
    have ihr := preorder_docAllList_funcs oracle rest
    simp [docAllList, docAllStmt, preorderList, children,
      List.filter_cons, List.filter_append, isFuncStmt, ihr]
  | .other cs :: rest =>
    have ihc := preorder_docAllList_funcs oracle cs
    have ihr := preorder_docAllList_funcs oracle rest
    simp [docAllList, docAllStmt, preorderList, children,
      List.filter_cons, List.filter_append, isFuncStmt, ihc, ihr]
termination_by (l.map sizeOf).sum
decreasing_by
  all_goals first
    | exact measure_tail_lt _ _
    | exact measure_fd_lt _ _ _ _
    | exact measure_other_lt _ _

/-- The functions of the fully documented tree are exactly the images of
the functions of the original tree, in the same document order. -/
theorem funcList_docAll (oracle : Stmt → Nat → List Char) (t : PyModule) :
    funcList (docAll oracle t) = (funcList t).map (docAllStmt oracle) := by
  unfold funcList preorder docAll
  exact preorder_docAllList_funcs oracle t.body

/- ## Success-path helpers -/

theorem succsOf_of_success (oracle : Stmt → Nat → List Char)
    (fs : List (List Nat × Stmt))
    (h : ∀ ps ∈ fs, (extract_docstring (oracle ps.2 0)).isSome = true) :
    succsOf oracle fs = fs.map (fun ps => (ps.1, docOfResp oracle ps.2)) := by
  induction fs with
  | nil => rfl
  | cons x rest ih =>
    have hx := h x (List.mem_cons_self ..)
    cases hsome : extract_docstring (oracle x.2 0) with
    | none => rw [hsome] at hx; simp at hx
    | some d =>
      have ht := ih (fun ps hps => h ps (List.mem_cons_of_mem _ hps))
      rw [List.map_cons]
      rw [show succsOf oracle (x :: rest) = (x.1, d) :: succsOf oracle rest from by
        simp [succsOf, List.filterMap_cons, hsome]]
      rw [ht]
      congr 1
      simp [docOfResp, hsome]

theorem funcsP_perm (t : PyModule) :
    (funcsP t).Perm ((preP t).filter (fun ps => isFuncStmt ps.2)) :=
  (walkP_perm t).filter _

theorem funcsP_paths_nodup (t : PyModule) : ((funcsP t).map Prod.fst).Nodup := by
  have h1 := (funcsP_perm t).map Prod.fst
  have h2 : (((preP t).filter (fun ps => isFuncStmt ps.2)).map Prod.fst).Sublist
      ((preP t).map Prod.fst) := (List.filter_sublist _).map _
  have h3 : ((preP t).map Prod.fst).Nodup := by
    unfold preP
    exact prePList_paths_nodup t.body [] 0
  exact h1.symm.nodup (h3.sublist h2)

theorem mem_funcsP_of_preP (t : PyModule) {q : List Nat} {g : Stmt}
    (hm : (q, g) ∈ preP t) (hf : isFuncStmt g = true) : (q, g) ∈ funcsP t := by
  have hw := (walkP_perm t).mem_iff.mpr hm
  exact List.mem_filter.mpr ⟨hw, hf⟩

theorem mem_preP_of_funcsP (t : PyModule) {q : List Nat} {g : Stmt}
    (hm : (q, g) ∈ funcsP t) : (q, g) ∈ preP t ∧ isFuncStmt g = true := by
  have h := List.mem_filter.mp hm
  exact ⟨(walkP_perm t).mem_iff.mp h.1, h.2⟩

theorem keys_nodup_eq_val {α : Type _} (l : List (List Nat × α))
    (hnd : (l.map Prod.fst).Nodup) {p : List Nat} {a b : α}
    (ha : (p, a) ∈ l) (hb : (p, b) ∈ l) : a = b := by
  induction l with
  | nil => simp at ha
  | cons x rest ih =>
    simp only [List.map_cons, List.nodup_cons] at hnd
    rcases List.mem_cons.mp ha with h1 | h1
    · rcases List.mem_cons.mp hb with h2 | h2
      · exact congrArg Prod.snd (h1.trans h2.symm)
      · exfalso
        apply hnd.1
        have hx : x.1 = p := (congrArg Prod.fst h1).symm
        rw [hx]
        exact List.mem_map.mpr ⟨(p, b), h2, rfl⟩
    · rcases List.mem_cons.mp hb with h2 | h2
      · exfalso
        apply hnd.1
        have hx : x.1 = p := (congrArg Prod.fst h2).symm
        rw [hx]
        exact List.mem_map.mpr ⟨(p, a), h1, rfl⟩
      · exact ih hnd.2 h1 h2

/-- When every visited function succeeds, looking any function path up in
the accumulated patches yields exactly the docstring extracted from the
first response for that function. -/
theorem lookup_succs_all (oracle : Stmt → Nat → List Char) (t : PyModule)
    (hall : ∀ ps ∈ funcsP t, (extract_docstring (oracle ps.2 0)).isSome = true) :
    ∀ q g, (q, g) ∈ preP t → isFuncStmt g = true →
      lookupPath (succsOf oracle (funcsP t)) q = some (docOfResp oracle g) := by
  intro q g hq hf
  have hmem : (q, g) ∈ funcsP t := mem_funcsP_of_preP t hq hf
  have hsucc := succsOf_of_success oracle (funcsP t) hall
  have hkey : ((succsOf oracle (funcsP t)).map Prod.fst).Nodup := by
    rw [hsucc, List.map_map]
    have hc : (Prod.fst ∘ fun ps : List Nat × Stmt => (ps.1, docOfResp oracle ps.2))
        = Prod.fst := rfl
    rw [hc]
    exact funcsP_paths_nodup t
  apply lookupPath_eq_some_of_mem _ hkey
  rw [hsucc]
  exact List.mem_map.mpr ⟨(q, g), hmem, rfl⟩

/-- With an all-success oracle, the final tree of a run is the fully
documented tree. -/
theorem run_all_success_finalTree (u : PyModule → List Char)
    (oracle : Stmt → Nat → List Char) (t : PyModule)
    (hall : ∀ ps ∈ funcsP t, (extract_docstring (oracle ps.2 0)).isSome = true) :
    (run u oracle t).finalTree = docAll oracle t := by
  rw [run_spec]
  exact applyDocs_eq_docAll _ oracle t (lookup_succs_all oracle t hall)

/- ## Extraction facts used by the claims -/

/-- An occurrence of the three-character marker needs three characters of
room. -/
theorem occursAt_add_three_le (raw : List Char) (j : Nat) (h : occursAt raw tq j) :
    j + 3 ≤ raw.length := by
  unfold occursAt at h
  have hlen := h.length_le
  simp only [List.length_drop, tq, List.length_cons, List.length_nil] at hlen
  omega

/-- A pattern is an infix exactly when it occurs at some index. -/
theorem infix_iff_exists_occursAt (d pat : List Char) :
    pat <:+: d ↔ ∃ i, occursAt d pat i := by
  constructor
  · rintro ⟨s, t, hst⟩
    refine ⟨s.length, ?_⟩
    unfold occursAt
    rw [← hst, List.append_assoc, List.drop_left]
    exact List.prefix_append pat t
  · rintro ⟨i, hi⟩
    obtain ⟨t, ht⟩ := hi
    exact ⟨d.take i, t, by rw [List.append_assoc, ht, List.take_append_drop]⟩

/- ## Claims C2, C3, C4, C6, C9, C10 -/

/-- C2: the claim says that in `generate_docstring` each no-marker response
consumes exactly one attempt and triggers a fresh generation call, and that
after `tries = 2` consecutive no-marker responses a permanent failure naming
the target function is raised.  The code violates this: the retry branch
formats `f"Could not find ... {node.name}"`, and `node` is a local variable
of `main` that is not in scope in `generate_docstring`, so the first
no-marker response raises `NameError` at once — the attempt counter is
never decremented, no second generation call happens, and the final
function-naming `raise` is unreachable.  This theorem evaluates the model
at the failing input: the first response has no marker while the second
response would extract perfectly well, and the call nevertheless raises
the `NameError` instead of retrying. -/
theorem C2_no_marker_raises_nameError_immediately :
    generate_docstring
      (fun n => if n = 0 then ("no marker here").toList else ("\"\"\"doc\"\"\"").toList) 2
      = Except.error PyErr.nameError := by
  decide

/-- C3: for a response whose first marker occurrence at `p` is followed by
a later occurrence, the first such being at `q`, `generate_docstring`
returns the substring strictly between the two markers, the characters at
indices `p + 3` up to `q`. -/
theorem C3_between_markers (oracle : Nat → List Char) (raw : List Char) (p q : Nat)
    (hraw : oracle 0 = raw)
    (hp : occursAt raw tq p) (hpMin : ∀ j < p, ¬ occursAt raw tq j)
    (hq : occursAt raw tq q) (hpq : p + 3 ≤ q)
    (hqMin : ∀ j < q, p + 3 ≤ j → ¬ occursAt raw tq j) :
    generate_docstring oracle 2 = Except.ok ((raw.take q).drop (p + 3)) := by
  have hfind0 : pyFind raw tq 0 = some p :=
    (pyFind_eq_some_iff raw tq 0 p).mpr
      ⟨Nat.zero_le p, hp, fun j _ hj2 => hpMin j hj2⟩
  have hfind1 : pyFind raw tq (p + 3) = some q :=
    (pyFind_eq_some_iff raw tq (p + 3) q).mpr
      ⟨hpq, hq, fun j h1 h2 => hqMin j h2 h1⟩
  have hex : extract_docstring raw = some ((raw.take q).drop (p + 3)) := by
    simp [extract_docstring, hfind0, hfind1]
  rw [generate_docstring_two, hraw, hex]

/-- Witness for C3 on the spec example: `intro"""doc"""outro` yields
`doc`. -/
theorem C3_witness :
    generate_docstring (fun _ => ("intro\"\"\"doc\"\"\"outro").toList) 2
      = Except.ok (("doc").toList) := by
  have h := C3_between_markers (fun _ => ("intro\"\"\"doc\"\"\"outro").toList)
    (("intro\"\"\"doc\"\"\"outro").toList) 5 11 rfl (by decide) (by decide)
    (by decide) (by decide) (by decide)
  rw [h]
  decide

/-- C4: for a response whose first marker occurrence at `p` has no later
occurrence, `generate_docstring` returns everything after the opening
marker through the end of the response (the implicit close), rather than
failing or discarding the output. -/
theorem C4_implicit_close (oracle : Nat → List Char) (raw : List Char) (p : Nat)
    (hraw : oracle 0 = raw)
    (hp : occursAt raw tq p) (hpMin : ∀ j < p, ¬ occursAt raw tq j)
    (hnone : ∀ j < raw.length, p + 3 ≤ j → ¬ occursAt raw tq j) :
    generate_docstring oracle 2 = Except.ok (raw.drop (p + 3)) := by
  have hfind0 : pyFind raw tq 0 = some p :=
    (pyFind_eq_some_iff raw tq 0 p).mpr
      ⟨Nat.zero_le p, hp, fun j _ hj2 => hpMin j hj2⟩
  have hnone2 : ∀ j, p + 3 ≤ j → ¬ occursAt raw tq j := by
    intro j hj hocc
    have hlt := occursAt_add_three_le raw j hocc
    exact hnone j (by omega) hj hocc
  have hfind1 : pyFind raw tq (p + 3) = none :=
    (pyFind_eq_none_iff raw tq (p + 3)).mpr hnone2
  have hex : extract_docstring raw = some (raw.drop (p + 3)) := by
    simp [extract_docstring, hfind0, hfind1, List.take_left]
  rw [generate_docstring_two, hraw, hex]

/-- Witness for C4 on the spec example: `"""unterminated tail` yields
`unterminated tail`. -/
theorem C4_witness :
    generate_docstring (fun _ => ("\"\"\"unterminated tail").toList) 2
      = Except.ok (("unterminated tail").toList) := by
  have h := C4_implicit_close (fun _ => ("\"\"\"unterminated tail").toList)
    (("\"\"\"unterminated tail").toList) 0 rfl (by decide) (by decide) (by decide)
  rw [h]
  decide

/-- C6: for every function node and every extracted text, the patch step
sets the body of the node to the new documentation statement followed by
all pre-existing statements in their original order, and applying the
patch twice stacks two documentation statements at the front with no
deduplication (patching is not idempotent). -/
theorem C6_patch_prepends_no_dedup (n : String) (a : Bool) (b : List Stmt)
    (d d2 : List Char) :
    patchStmt (Stmt.functionDef n a b) d
      = Stmt.functionDef n a (Stmt.exprConst d :: b) ∧
    patchStmt (patchStmt (Stmt.functionDef n a b) d) d2
      = Stmt.functionDef n a (Stmt.exprConst d2 :: Stmt.exprConst d :: b) :=
  ⟨rfl, rfl⟩

/-- C9: whenever extraction succeeds, the returned string contains no
occurrence of the triple-quote delimiter, in the between-markers case and
in the implicit-close case alike. -/
theorem C9_no_delimiter_in_extract (raw d : List Char)
    (h : extract_docstring raw = some d) : ¬ tq <:+: d := by
  rw [infix_iff_exists_occursAt]
  rintro ⟨i, hocc⟩
  cases hf0 : pyFind raw tq 0 with
  | none => rw [extract_docstring, hf0] at h; simp at h
  | some p =>
    cases hf1 : pyFind raw tq (p + 3) with
    | some q =>
      have hex : extract_docstring raw = some ((raw.take q).drop (p + 3)) := by
        simp [extract_docstring, hf0, hf1]
      rw [hex] at h
      have hd := Option.some.inj h
      subst hd
      obtain ⟨hle, hoccq, hmin⟩ := (pyFind_eq_some_iff raw tq (p + 3) q).mp hf1
      unfold occursAt at hocc
      rw [List.drop_drop, List.drop_take] at hocc
      have hlen := hocc.length_le
      simp only [List.length_take, List.length_drop, tq, List.length_cons,
        List.length_nil] at hlen
      have hj : p + 3 + i < q := by omega
      have hoccraw : occursAt raw tq (p + 3 + i) := by
        unfold occursAt
        exact hocc.trans (take_isPrefix _ _)
      exact hmin (p + 3 + i) (by omega) hj hoccraw
    | none =>
      have hex : extract_docstring raw = some (raw.drop (p + 3)) := by
        simp [extract_docstring, hf0, hf1, List.take_left]
      rw [hex] at h
      have hd := Option.some.inj h
      subst hd
      unfold occursAt at hocc
      rw [List.drop_drop] at hocc
      exact (pyFind_eq_none_iff raw tq (p + 3)).mp hf1 (p + 3 + i) (by omega) hocc

/-- Witness for C9: on `x"""ab` extraction succeeds with `ab`, which holds
no delimiter. -/
theorem C9_witness : ¬ tq <:+: (("ab").toList) :=
  C9_no_delimiter_in_extract (("x\"\"\"ab").toList) (("ab").toList) (by decide)

/-- C10: when the first marker occurrence is immediately followed by
another (adjacent markers), extraction succeeds with the empty string, the
call returns it, and the patch step inserts that empty documentation text
verbatim — no non-emptiness validation exists on the success path. -/
theorem C10_adjacent_markers_empty (raw : List Char) (p : Nat)
    (hp : occursAt raw tq p) (hpMin : ∀ j < p, ¬ occursAt raw tq j)
    (hadj : occursAt raw tq (p + 3)) :
    extract_docstring raw = some [] ∧
    (∀ oracle : Nat → List Char, oracle 0 = raw →
      generate_docstring oracle 2 = Except.ok []) ∧
    (∀ n a b, patchStmt (Stmt.functionDef n a b) []
      = Stmt.functionDef n a (Stmt.exprConst [] :: b)) := by
  have hfind0 : pyFind raw tq 0 = some p :=
    (pyFind_eq_some_iff raw tq 0 p).mpr
      ⟨Nat.zero_le p, hp, fun j _ hj2 => hpMin j hj2⟩
  have hfind1 : pyFind raw tq (p + 3) = some (p + 3) :=
    (pyFind_eq_some_iff raw tq (p + 3) (p + 3)).mpr
      ⟨Nat.le_refl _, hadj, fun j h1 h2 => absurd h1 (by omega)⟩
  have hex : extract_docstring raw = some [] := by
    simp [extract_docstring, hfind0, hfind1, List.drop_take]
  refine ⟨hex, ?_, ?_⟩
  · intro oracle ho
    rw [generate_docstring_two, ho, hex]
  · intro n a b
    rfl

/-- Witness for C10 on `x""""""y`: adjacent markers give the empty
docstring, which is returned and patched verbatim. -/
theorem C10_witness :
    extract_docstring (("x\"\"\"\"\"\"y").toList) = some [] ∧
    generate_docstring (fun _ => ("x\"\"\"\"\"\"y").toList) 2 = Except.ok [] ∧
    patchStmt (Stmt.functionDef ("f") false [Stmt.other []]) []
      = Stmt.functionDef ("f") false [Stmt.exprConst [], Stmt.other []] := by
  have h := C10_adjacent_markers_empty (("x\"\"\"\"\"\"y").toList) 1
    (by decide) (by decide) (by decide)
  exact ⟨h.1, h.2.1 _ rfl, h.2.2 ("f") false [Stmt.other []]⟩

/- ## Claim C5 -/

/-- C5 counterexample: on a file whose first function `f` contains a
nested function `g`, with a second top-level function `h`, the driver
traversal (`ast.walk`) visits the functions as `f, h, g`, while document
(pre-)order is `f, g, h`; the claim that the traversal is pre-order is
false at this input. -/
theorem C5_counterexample :
    ((walk (PyModule.mk
        [Stmt.functionDef ("f") false [Stmt.functionDef ("g") false [Stmt.other []]],
         Stmt.functionDef ("h") false []])).filter isFuncStmt).map nameOf
      = [("f" : String), ("h"), ("g")] ∧
    ((preorder (PyModule.mk
        [Stmt.functionDef ("f") false [Stmt.functionDef ("g") false [Stmt.other []]],
         Stmt.functionDef ("h") false []])).filter isFuncStmt).map nameOf
      = [("f" : String), ("g"), ("h")] ∧
    ((walk (PyModule.mk
        [Stmt.functionDef ("f") false [Stmt.functionDef ("g") false [Stmt.other []]],
         Stmt.functionDef ("h") false []])).filter isFuncStmt).map nameOf
      ≠ ((preorder (PyModule.mk
        [Stmt.functionDef ("f") false [Stmt.functionDef ("g") false [Stmt.other []]],
         Stmt.functionDef ("h") false []])).filter isFuncStmt).map nameOf := by
  have h1 : ((walk (PyModule.mk
      [Stmt.functionDef ("f") false [Stmt.functionDef ("g") false [Stmt.other []]],
       Stmt.functionDef ("h") false []])).filter isFuncStmt).map nameOf
      = [("f" : String), ("h"), ("g")] := by
    simp [walk, walkAux, children, isFuncStmt, nameOf]
  have h2 : ((preorder (PyModule.mk
      [Stmt.functionDef ("f") false [Stmt.functionDef ("g") false [Stmt.other []]],
       Stmt.functionDef ("h") false []])).filter isFuncStmt).map nameOf
      = [("f" : String), ("g"), ("h")] := by
    simp [preorder, preorderList, children, isFuncStmt, nameOf]
  refine ⟨h1, h2, ?_⟩
  rw [h1, h2]
  decide

/-- C5 amended: the traversal the driver uses (`ast.walk`) visits every
node of the tree, nested ones included, exactly once, but in breadth-first
(level) order, not in pre-order — it is a permutation of document order —
and the functions the driver requests, patches and persists are exactly
the walk sequence filtered to function nodes, in that breadth-first
order. -/
theorem C5_amended_walk_visits_all_in_bfs (t : PyModule) :
    (walk t).Perm (preorder t) ∧
    (funcsP t).map Prod.snd = (walk t).filter isFuncStmt := by
  refine ⟨walkAux_perm t.body, ?_⟩
  unfold funcsP
  rw [← walkP_map_snd]
  generalize walkP t = l
  induction l with
  | nil => rfl
  | cons x r ih =>
    by_cases hx : isFuncStmt x.2
    · simp [List.filter_cons, hx, ih]
    · simp [List.filter_cons, hx, ih]

/- ## Claim C1 -/

/-- C1: for every input tree and every oracle whose first response for
each visited function contains the marker (extraction succeeds on the
first attempt), one run of `main` produces the fully documented tree: the
functions of the result are exactly the images of the original functions
(so there are exactly as many), and each image carries exactly one new
documentation statement as the first element of its body with all
pre-existing statements after it (nested functions being documented by
their own patches). -/
theorem C1_all_success (u : PyModule → List Char) (oracle : Stmt → Nat → List Char)
    (t : PyModule)
    (hall : ∀ ps ∈ funcsP t, (extract_docstring (oracle ps.2 0)).isSome = true) :
    (run u oracle t).finalTree = docAll oracle t ∧
    funcList (docAll oracle t) = (funcList t).map (docAllStmt oracle) ∧
    (funcList (docAll oracle t)).length = (funcList t).length ∧
    (∀ n a b, docAllStmt oracle (Stmt.functionDef n a b)
      = Stmt.functionDef n a
          (Stmt.exprConst (docOfResp oracle (Stmt.functionDef n a b))
            :: docAllList oracle b)) := by
  refine ⟨run_all_success_finalTree u oracle t hall, funcList_docAll oracle t, ?_,
    fun n a b => rfl⟩
  rw [funcList_docAll]
  exact List.length_map ..

/-- Witness for C1: a two-function file with a nested third function and a
constant well-delimited oracle. -/
theorem C1_witness :
    (run serialize (fun _ _ => ("\"\"\"doc\"\"\"").toList)
        (PyModule.mk
          [Stmt.functionDef ("f") false [Stmt.functionDef ("g") false [Stmt.other []]],
           Stmt.functionDef ("h") false []])).finalTree
      = docAll (fun _ _ => ("\"\"\"doc\"\"\"").toList)
          (PyModule.mk
            [Stmt.functionDef ("f") false [Stmt.functionDef ("g") false [Stmt.other []]],
             Stmt.functionDef ("h") false []]) ∧
    funcList (docAll (fun _ _ => ("\"\"\"doc\"\"\"").toList)
          (PyModule.mk
            [Stmt.functionDef ("f") false [Stmt.functionDef ("g") false [Stmt.other []]],
             Stmt.functionDef ("h") false []]))
      = (funcList (PyModule.mk
            [Stmt.functionDef ("f") false [Stmt.functionDef ("g") false [Stmt.other []]],
             Stmt.functionDef ("h") false []])).map
          (docAllStmt (fun _ _ => ("\"\"\"doc\"\"\"").toList)) ∧
    (funcList (docAll (fun _ _ => ("\"\"\"doc\"\"\"").toList)
          (PyModule.mk
            [Stmt.functionDef ("f") false [Stmt.functionDef ("g") false [Stmt.other []]],
             Stmt.functionDef ("h") false []]))).length
      = (funcList (PyModule.mk
            [Stmt.functionDef ("f") false [Stmt.functionDef ("g") false [Stmt.other []]],
             Stmt.functionDef ("h") false []])).length ∧
    docAllStmt (fun _ _ => ("\"\"\"doc\"\"\"").toList) (Stmt.functionDef ("f") false [])
      = Stmt.functionDef ("f") false
          [Stmt.exprConst (docOfResp (fun _ _ => ("\"\"\"doc\"\"\"").toList)
            (Stmt.functionDef ("f") false []))] := by
  have h := C1_all_success serialize (fun _ _ => ("\"\"\"doc\"\"\"").toList)
    (PyModule.mk
      [Stmt.functionDef ("f") false [Stmt.functionDef ("g") false [Stmt.other []]],
       Stmt.functionDef ("h") false []])
    (by
      intro ps hps
      show (extract_docstring (("\"\"\"doc\"\"\"").toList)).isSome = true
      decide)
  exact ⟨h.1, h.2.1, h.2.2.1, h.2.2.2 ("f") false []⟩

/- ## Claim C8 -/

/-- C8: one whole-tree serialization is written to the file per successful
patch (writes and successes are in bijection), and the i-th write is
exactly the serialization of the tree holding the first i+1 successful
patches — so at every point the file equals the whole-tree serialization
as of the most recently patched function, and an interruption right after
the i-th write leaves exactly that content; no partial in-place edit ever
occurs. -/
theorem C8_file_reflects_each_patch (u : PyModule → List Char)
    (oracle : Stmt → Nat → List Char) (t : PyModule) (i : Nat)
    (hi : i < (run u oracle t).done.length) :
    (run u oracle t).writes.length = (run u oracle t).done.length ∧
    (run u oracle t).writes[i]?
      = some (u (applyDocs ((run u oracle t).done.take (i + 1)) t)) := by
  rw [run_spec] at hi ⊢
  constructor
  · simpa using writesOf_length u t (succsOf oracle (funcsP t)) []
  · simpa using writesOf_getElem u t (succsOf oracle (funcsP t)) [] i (by simpa using hi)

/-- Witness for C8: a one-function file, a well-delimited oracle, and the
first (index 0) write. -/
theorem C8_witness :
    (run serialize (fun _ _ => ("\"\"\"doc\"\"\"").toList)
        (PyModule.mk [Stmt.functionDef ("f") false [Stmt.other []]])).writes.length
      = (run serialize (fun _ _ => ("\"\"\"doc\"\"\"").toList)
        (PyModule.mk [Stmt.functionDef ("f") false [Stmt.other []]])).done.length ∧
    (run serialize (fun _ _ => ("\"\"\"doc\"\"\"").toList)
        (PyModule.mk [Stmt.functionDef ("f") false [Stmt.other []]])).writes[0]?
      = some (serialize (applyDocs
          ((run serialize (fun _ _ => ("\"\"\"doc\"\"\"").toList)
            (PyModule.mk [Stmt.functionDef ("f") false [Stmt.other []]])).done.take 1)
          (PyModule.mk [Stmt.functionDef ("f") false [Stmt.other []]]))) := by
  have h := C8_file_reflects_each_patch serialize (fun _ _ => ("\"\"\"doc\"\"\"").toList)
    (PyModule.mk [Stmt.functionDef ("f") false [Stmt.other []]]) 0
    (by
      rw [run_spec]
      simp [funcsP, walkP, walkPAux, childrenP, children, isFuncStmt, List.enum,
        List.enumFrom, succsOf]
      decide)
  exact ⟨h.1, h.2⟩

/- ## Claim C7 -/

/-- C7 amended: when docstring generation raises for a function node, the
driver catches the exception at the per-function boundary, logs an error
naming the function, performs no patch and no file write for it (its path
never enters the patch list), and continues: every function whose first
response admits extraction is still patched.  The body of the failed node
itself receives no documentation statement; however its nested functions
are walked and patched independently, so its subtree — and therefore its
serialized text — is unchanged only when no successful patch lies below
it. -/
theorem C7_failed_function_skipped (u : PyModule → List Char)
    (oracle : Stmt → Nat → List Char) (t : PyModule) (pf : List Nat) (f : Stmt)
    (hmem : (pf, f) ∈ funcsP t)
    (hfail : extract_docstring (oracle f 0) = none) :
    LogEvent.errorSkip (nameOf f) ∈ (run u oracle t).log ∧
    (∀ e, (pf, e) ∉ (run u oracle t).done) ∧
    (run u oracle t).finalTree = applyDocs (run u oracle t).done t ∧
    ((∀ q, q ∈ (run u oracle t).done.map Prod.fst → ¬ pf <+: q) →
      applyDocsStmt (run u oracle t).done pf f = f) ∧
    (∀ pg g e, (pg, g) ∈ funcsP t → extract_docstring (oracle g 0) = some e →
      (pg, e) ∈ (run u oracle t).done) := by
  have hr := run_spec u oracle t
  have hlog : (run u oracle t).log = logOf oracle (funcsP t) := by rw [hr]
  have hdone : (run u oracle t).done = succsOf oracle (funcsP t) := by rw [hr]
  have htree : (run u oracle t).finalTree
      = applyDocs (succsOf oracle (funcsP t)) t := by rw [hr]
  refine ⟨?_, ?_, ?_, ?_, ?_⟩
  · rw [hlog]
    unfold logOf
    apply List.mem_flatMap.mpr
    refine ⟨(pf, f), hmem, ?_⟩
    simp [hfail]
  · intro e hmem2
    rw [hdone] at hmem2
    obtain ⟨⟨pq, g⟩, hg, hfm⟩ := List.mem_filterMap.mp hmem2
    obtain ⟨dd, hdd, heq⟩ := Option.map_eq_some'.mp hfm
    have hp1 : pq = pf := congrArg Prod.fst heq
    subst hp1
    have hgf : g = f := keys_nodup_eq_val (funcsP t) (funcsP_paths_nodup t) hg hmem
    rw [hgf] at hdd
    rw [hdd] at hfail
    exact Option.noConfusion hfail
  · rw [htree, hdone]
  · intro hq
    exact applyDocsStmt_id _ f pf hq
  · intro pg g e hg he
    rw [hdone]
    exact List.mem_filterMap.mpr ⟨(pg, g), hg, by simp [he]⟩

/-- C7 counterexample: the claim additionally asserts that the text of the
failed node in the final file is unchanged.  On a file whose only
top-level function `f` (whose generation raises) contains a nested
function `g` (whose generation succeeds), the driver still patches `g`, so
the subtree of `f` — and its serialized text — does change, while the log
shows the generation error for `f`. -/
theorem C7_counterexample :
    LogEvent.errorSkip ("f") ∈
      (run serialize
        (fun s _ => match s with
          | .functionDef _ true _ => ("\"\"\"d\"\"\"").toList
          | _ => ("no").toList)
        (PyModule.mk [Stmt.functionDef ("f") false
          [Stmt.functionDef ("g") true [Stmt.other []]]])).log ∧
    (run serialize
        (fun s _ => match s with
          | .functionDef _ true _ => ("\"\"\"d\"\"\"").toList
          | _ => ("no").toList)
        (PyModule.mk [Stmt.functionDef ("f") false
          [Stmt.functionDef ("g") true [Stmt.other []]]])).finalTree
      = PyModule.mk [Stmt.functionDef ("f") false
          [Stmt.functionDef ("g") true [Stmt.exprConst (("d").toList), Stmt.other []]]] ∧
    serialize ((run serialize
        (fun s _ => match s with
          | .functionDef _ true _ => ("\"\"\"d\"\"\"").toList
          | _ => ("no").toList)
        (PyModule.mk [Stmt.functionDef ("f") false
          [Stmt.functionDef ("g") true [Stmt.other []]]])).finalTree)
      ≠ serialize (PyModule.mk [Stmt.functionDef ("f") false
          [Stmt.functionDef ("g") true [Stmt.other []]]]) := by
  have hno : extract_docstring ['n', 'o'] = none := by decide
  have hd : extract_docstring ['\"', '\"', '\"', 'd', '\"', '\"', '\"']
      = some ['d'] := by decide
  have htree : (run serialize
      (fun s _ => match s with
        | .functionDef _ true _ => ("\"\"\"d\"\"\"").toList
        | _ => ("no").toList)
      (PyModule.mk [Stmt.functionDef ("f") false
        [Stmt.functionDef ("g") true [Stmt.other []]]])).finalTree
      = PyModule.mk [Stmt.functionDef ("f") false
          [Stmt.functionDef ("g") true
            [Stmt.exprConst (("d").toList), Stmt.other []]]] := by
    rw [run_spec]
    simp [funcsP, walkP, walkPAux, childrenP, children, isFuncStmt, List.enum,
      List.enumFrom, succsOf, hno, hd, applyDocs, applyDocsList, applyDocsStmt,
      lookupPath, patchStmt]
  refine ⟨?_, htree, ?_⟩
  · rw [run_spec]
    simp [funcsP, walkP, walkPAux, childrenP, children, isFuncStmt, List.enum,
      List.enumFrom, logOf, nameOf, hno, hd]
  · rw [htree]
    decide

/-- Witness for C7: a file with a failing function `f` and a succeeding
async function `h`, both at top level: the error is logged, `f` receives
no patch, the final tree is the accumulated patches, the subtree of `f` is
unchanged, and the success of `h` is recorded. -/
theorem C7_witness :
    LogEvent.errorSkip ("f") ∈
      (run serialize
        (fun s _ => match s with
          | .functionDef _ true _ => ("\"\"\"d\"\"\"").toList
          | _ => ("no").toList)
        (PyModule.mk [Stmt.functionDef ("f") false [Stmt.other []],
          Stmt.functionDef ("h") true []])).log ∧
    ([0], ("d").toList) ∉
      (run serialize
        (fun s _ => match s with
          | .functionDef _ true _ => ("\"\"\"d\"\"\"").toList
          | _ => ("no").toList)
        (PyModule.mk [Stmt.functionDef ("f") false [Stmt.other []],
          Stmt.functionDef ("h") true []])).done ∧
    applyDocsStmt
      (run serialize
        (fun s _ => match s with
          | .functionDef _ true _ => ("\"\"\"d\"\"\"").toList
          | _ => ("no").toList)
        (PyModule.mk [Stmt.functionDef ("f") false [Stmt.other []],
          Stmt.functionDef ("h") true []])).done [0]
      (Stmt.functionDef ("f") false [Stmt.other []])
      = Stmt.functionDef ("f") false [Stmt.other []] ∧
    ([1], ("d").toList) ∈
      (run serialize
        (fun s _ => match s with
          | .functionDef _ true _ => ("\"\"\"d\"\"\"").toList
          | _ => ("no").toList)
        (PyModule.mk [Stmt.functionDef ("f") false [Stmt.other []],
          Stmt.functionDef ("h") true []])).done := by
  have hno : extract_docstring ['n', 'o'] = none := by decide
  have hd : extract_docstring ['\"', '\"', '\"', 'd', '\"', '\"', '\"']
      = some ['d'] := by decide
  have hmem : ([0], Stmt.functionDef ("f") false [Stmt.other []]) ∈
      funcsP (PyModule.mk [Stmt.functionDef ("f") false [Stmt.other []],
        Stmt.functionDef ("h") true []]) := by
    simp [funcsP, walkP, walkPAux, childrenP, children, isFuncStmt, List.enum,
      List.enumFrom]
  have hdone : (run serialize
      (fun s _ => match s with
        | .functionDef _ true _ => ("\"\"\"d\"\"\"").toList
        | _ => ("no").toList)
      (PyModule.mk [Stmt.functionDef ("f") false [Stmt.other []],
        Stmt.functionDef ("h") true []])).done = [([1], ("d").toList)] := by
    rw [run_spec]
    simp [funcsP, walkP, walkPAux, childrenP, children, isFuncStmt, List.enum,
      List.enumFrom, succsOf, hno, hd]
  have h := C7_failed_function_skipped serialize
    (fun s _ => match s with
      | .functionDef _ true _ => ("\"\"\"d\"\"\"").toList
      | _ => ("no").toList)
    (PyModule.mk [Stmt.functionDef ("f") false [Stmt.other []],
      Stmt.functionDef ("h") true []])
    [0] (Stmt.functionDef ("f") false [Stmt.other []]) hmem hno
  refine ⟨h.1, h.2.1 (("d").toList), ?_, ?_⟩
  · apply h.2.2.2.1
    intro q hq
    rw [hdone] at hq
    simp at hq
    rw [hq]
    decide
  · apply h.2.2.2.2 [1] (Stmt.functionDef ("h") true []) (("d").toList)
    · simp [funcsP, walkP, walkPAux, childrenP, children, isFuncStmt, List.enum,
        List.enumFrom]
    · exact hd
